import Mathlib

/-!
Verification development for the npm-version manager module `src/lib/npm.js`
(nodist-ws). The JavaScript source is shallowly embedded: pure helpers become
Lean functions, filesystem / network effects become explicit state or result
parameters, and callback results become `Option` / `Except` values.

The module leans on the external `semver` library for version parsing,
comparison, ranges and range matching.  That library is modelled here for the
fragment the module exercises: plain `MAJOR.MINOR.PATCH` versions (with the
optional leading `v` and leading `=` the library accepts) and ranges formed
from `*`, exact versions, primitive comparators (`<`, `<=`, `>`, `>=`, `=`),
caret and tilde clauses joined as a space-separated conjunction.  Prerelease
identifiers and the other range syntaxes are outside the modelled fragment.
-/

namespace Nodist

/-- A parsed semantic version: (major, minor, patch). -/
abbrev Triple := Nat × Nat × Nat

/-- Strict lexicographic order on version triples (the order `semver.compare`
induces on plain versions). -/
def tLt (x y : Triple) : Bool :=
  decide (x.1 < y.1) ||
    (decide (x.1 = y.1) &&
      (decide (x.2.1 < y.2.1) ||
        (decide (x.2.1 = y.2.1) && decide (x.2.2 < y.2.2))))

/-- Non-strict version order, as the negation of the reversed strict order. -/
def tLe (x y : Triple) : Bool := ! tLt y x

theorem tLt_char (x y : Triple) :
    tLt x y = true ↔
      x.1 < y.1 ∨ (x.1 = y.1 ∧ (x.2.1 < y.2.1 ∨ (x.2.1 = y.2.1 ∧ x.2.2 < y.2.2))) := by
  simp [tLt]

theorem tLe_char (x y : Triple) :
    tLe x y = true ↔
      ¬ (y.1 < x.1 ∨ (y.1 = x.1 ∧ (y.2.1 < x.2.1 ∨ (y.2.1 = x.2.1 ∧ y.2.2 < x.2.2)))) := by
  simp [tLe, tLt]; omega

theorem tLe_refl (x : Triple) : tLe x x = true := by
  rw [tLe_char]; omega

theorem tLe_total (x y : Triple) : tLe x y = true ∨ tLe y x = true := by
  rw [tLe_char, tLe_char]; omega

theorem tLe_trans {x y z : Triple} (h₁ : tLe x y = true) (h₂ : tLe y z = true) :
    tLe x z = true := by
  rw [tLe_char] at h₁ h₂ ⊢; omega

theorem tLe_of_tLe_of_tLt {x y z : Triple} (h₁ : tLe x y = true) (h₂ : tLt y z = true) :
    tLe x z = true := by
  rw [tLe_char] at h₁ ⊢; rw [tLt_char] at h₂; omega

theorem tLe_of_not_tLt {x y : Triple} (h : ¬ tLt x y = true) : tLe y x = true := by
  simp [tLe, h]

/-- JavaScript whitespace for `trim` (the characters that occur in practice). -/
def isJsSpace (c : Char) : Bool :=
  c = ' ' || c = '\t' || c = '\n' || c = '\r' || c = '\x0b' || c = '\x0c'

/-- Characters of a string with leading and trailing whitespace removed. -/
def trimL (cs : List Char) : List Char :=
  ((cs.dropWhile isJsSpace).reverse.dropWhile isJsSpace).reverse

/-- `String.prototype.trim`. -/
def strTrim (s : String) : String := ⟨trimL s.data⟩

/-- Split a character list on a separator character (semantics of
`String.prototype.split` with a one-character separator). -/
def splitOnCharL (sep : Char) : List Char → List (List Char)
| [] => [[]]
| c :: cs =>
  if c = sep then [] :: splitOnCharL sep cs
  else
    match splitOnCharL sep cs with
    | [] => [[c]]
    | h :: t => (c :: h) :: t

/-- String-level split on a one-character separator. -/
def strSplitOn (sep : Char) (s : String) : List String :=
  (splitOnCharL sep s.data).map (fun l => ⟨l⟩)

/-- Numeric value of a digit string. -/
def digitsVal (cs : List Char) : Nat :=
  cs.foldl (fun n c => n * 10 + (c.toNat - 48)) 0

/-- Parse a semver numeric identifier: nonempty, all digits, no leading zero
(the `0|[1-9]\d*` production of the semver grammar). -/
def parseNum (cs : List Char) : Option Nat :=
  if cs.isEmpty then none
  else if cs.all Char.isDigit then
    if cs.head? = some '0' && decide (cs.length > 1) then none
    else some (digitsVal cs)
  else none

def parseNumS (s : String) : Option Nat := parseNum s.data

/-- Parse `MAJOR.MINOR.PATCH` with no prefix. -/
def parseTriple (s : String) : Option Triple :=
  match strSplitOn '.' s with
  | [a, b, c] =>
    match parseNumS a, parseNumS b, parseNumS c with
    | some x, some y, some z => some (x, y, z)
    | _, _, _ => none
  | _ => none

/-- Drop one optional leading `v` (the semver grammar allows a single one). -/
def dropV (s : String) : String :=
  match s.data with
  | 'v' :: rest => ⟨rest⟩
  | _ => s

namespace semver

/-- Model of `semver.parse` on the plain-triple fragment: trim, allow one
optional leading `v`, then require `MAJOR.MINOR.PATCH`. -/
def parse (s : String) : Option Triple := parseTriple (dropV (strTrim s))

/-- Parsed triple with `(0,0,0)` as the junk value for unparseable strings
(only ever applied to strings known to parse). -/
def parseD (s : String) : Triple := (parse s).getD (0, 0, 0)

/-- Canonical rendering of a parsed version, as `SemVer.version` produces. -/
def toVString (t : Triple) : String :=
  toString t.1 ++ "." ++ toString t.2.1 ++ "." ++ toString t.2.2

/-- Model of `semver.valid`: the canonical version string, or `none`. -/
def valid (s : String) : Option String := (parse s).map toVString

/-- Model of `semver.clean`: trim, strip the leading run of `=` and `v`
characters (`/^[=v]+/`), then parse. -/
def clean (s : String) : Option String :=
  (parseTriple ⟨(strTrim s).data.dropWhile (fun c => c = '=' || c = 'v')⟩).map toVString

end semver

/-- A primitive range comparator. -/
inductive Cmp
| eqc : Triple → Cmp
| ltc : Triple → Cmp
| lec : Triple → Cmp
| gtc : Triple → Cmp
| gec : Triple → Cmp

/-- Whether a version meets one comparator. -/
def cmpTest (v : Triple) : Cmp → Bool
| .eqc t => decide (v = t)
| .ltc t => tLt v t
| .lec t => tLe v t
| .gtc t => tLt t v
| .gec t => tLe t v

/-- Upper bound excluded by a caret clause: `^X.Y.Z` allows changes that do
not modify the left-most non-zero component. -/
def caretUpper (t : Triple) : Triple :=
  if t.1 > 0 then (t.1 + 1, 0, 0)
  else if t.2.1 > 0 then (0, t.2.1 + 1, 0)
  else (0, 0, t.2.2 + 1)

namespace semver

/-- Parse one whitespace-separated range token into its comparator list.
`""` and `*` match anything; otherwise a caret, tilde, primitive comparator,
or bare version. -/
def parseTok (t : String) : Option (List Cmp) :=
  if t = "" || t = "*" then some []
  else
    match t.data with
    | '^' :: rest => (parse ⟨rest⟩).map (fun v => [.gec v, .ltc (caretUpper v)])
    | '~' :: rest => (parse ⟨rest⟩).map (fun v => [.gec v, .ltc (v.1, v.2.1 + 1, 0)])
    | '>' :: '=' :: rest => (parse ⟨rest⟩).map (fun v => [.gec v])
    | '<' :: '=' :: rest => (parse ⟨rest⟩).map (fun v => [.lec v])
    | '>' :: rest => (parse ⟨rest⟩).map (fun v => [.gtc v])
    | '<' :: rest => (parse ⟨rest⟩).map (fun v => [.ltc v])
    | '=' :: rest => (parse ⟨rest⟩).map (fun v => [.eqc v])
    | _ => (parse t).map (fun v => [.eqc v])

/-- Parse a range: a space-separated conjunction of tokens, all of which must
parse.  (The modelled fragment of the `semver` range grammar.) -/
def parseRange (s : String) : Option (List Cmp) :=
  ((strSplitOn ' ' (strTrim s)).filter (fun t => t ≠ "")).mapM parseTok |>.map List.flatten

/-- Model of `semver.validRange` on the modelled fragment. -/
def validRange (s : String) : Bool := (parseRange s).isSome

/-- Model of `semver.satisfies`: false when either side does not parse. -/
def satisfies (v : String) (r : String) : Bool :=
  match parse v, parseRange r with
  | some t, some cs => cs.all (cmpTest t)
  | _, _ => false

/-- One step of `semver.maxSatisfying`: keep the greater of the running
maximum and the next entry, when the entry satisfies the range. -/
def maxSatStep (r : String) (acc : Option String) (v : String) : Option String :=
  if satisfies v r then
    match acc with
    | none => some v
    | some m => if tLt (parseD m) (parseD v) then some v else some m
  else acc

/-- Model of `semver.maxSatisfying`: a left fold that keeps the first
strictly-greatest satisfying element, returning the original string. -/
def maxSatisfying (versions : List String) (r : String) : Option String :=
  versions.foldl (maxSatStep r) none

end semver

/-! ### A self-contained insertion sort

`Array.prototype.sort(cmp)` with a consistent comparator produces some
ordering that is sorted for the comparator and a permutation of the input;
it is modelled by an insertion sort driven by a boolean "may come before"
relation. -/

/-- Insert an element in front of the first entry it may precede. -/
def insertSorted (le : α → α → Bool) (a : α) : List α → List α
| [] => [a]
| b :: l => if le a b then a :: b :: l else b :: insertSorted le a l

/-- Sort by repeated insertion. -/
def sortBy (le : α → α → Bool) (l : List α) : List α :=
  l.foldr (insertSorted le) []

theorem mem_insertSorted (le : α → α → Bool) (a x : α) :
    ∀ l, x ∈ insertSorted le a l ↔ x = a ∨ x ∈ l := by
  intro l
  induction l with
  | nil => simp [insertSorted]
  | cons b l ih =>
    by_cases h : le a b = true
    · simp [insertSorted, h]
    · simp only [insertSorted, if_neg h, List.mem_cons, ih]
      tauto

theorem mem_sortBy (le : α → α → Bool) (x : α) :
    ∀ l, x ∈ sortBy le l ↔ x ∈ l := by
  intro l
  induction l with
  | nil => simp [sortBy]
  | cons b l ih =>
    simp only [sortBy, List.foldr_cons, List.mem_cons]
    rw [show List.foldr (insertSorted le) [] l = sortBy le l from rfl] at *
    rw [mem_insertSorted, ih]

theorem pairwise_insertSorted (le : α → α → Bool)
    (htot : ∀ x y, le x y = true ∨ le y x = true)
    (htrans : ∀ x y z, le x y = true → le y z = true → le x z = true)
    (a : α) :
    ∀ l, l.Pairwise (fun x y => le x y = true) →
      (insertSorted le a l).Pairwise (fun x y => le x y = true) := by
  intro l
  induction l with
  | nil => intro _; simp [insertSorted]
  | cons b l ih =>
    intro hp
    rcases List.pairwise_cons.1 hp with ⟨hb, hl⟩
    by_cases h : le a b = true
    · rw [insertSorted, if_pos h]
      refine List.pairwise_cons.2 ⟨?_, hp⟩
      intro y hy
      rcases List.mem_cons.1 hy with rfl | hy'
      · exact h
      · exact htrans a b y h (hb y hy')
    · rw [insertSorted, if_neg h]
      refine List.pairwise_cons.2 ⟨?_, ih hl⟩
      intro y hy
      rcases (mem_insertSorted le a y l).1 hy with hya | hy'
      · rcases htot a b with hab | hba
        · exact absurd hab h
        · exact hya.symm ▸ hba
      · exact hb y hy'

theorem pairwise_sortBy (le : α → α → Bool)
    (htot : ∀ x y, le x y = true ∨ le y x = true)
    (htrans : ∀ x y z, le x y = true → le y z = true → le x z = true) :
    ∀ l, (sortBy le l).Pairwise (fun x y => le x y = true) := by
  intro l
  induction l with
  | nil => simp [sortBy]
  | cons b l ih =>
    exact pairwise_insertSorted le htot htrans b _ ih

theorem getLast?_mem : ∀ (l : List α) (t : α), l.getLast? = some t → t ∈ l := by
  intro l
  induction l with
  | nil => intro t h; cases h
  | cons b l ih =>
    intro t h
    cases l with
    | nil =>
      simp [List.getLast?] at h
      simp [h]
    | cons c l' =>
      rw [List.getLast?_cons_cons] at h
      exact List.mem_cons.2 (Or.inr (ih t h))

theorem pairwise_getLast? {R : α → α → Prop} :
    ∀ (l : List α), l.Pairwise R → (∀ x ∈ l, R x x) →
      ∀ t, l.getLast? = some t → ∀ x ∈ l, R x t := by
  intro l
  induction l with
  | nil => intro _ _ t h; cases h
  | cons b l ih =>
    intro hp hrefl t h x hx
    rcases List.pairwise_cons.1 hp with ⟨hb, hl⟩
    cases l with
    | nil =>
      simp [List.getLast?] at h
      subst h
      rcases List.mem_singleton.1 hx with rfl
      exact hrefl x (List.mem_singleton.2 rfl)
    | cons c l' =>
      rw [List.getLast?_cons_cons] at h
      have ht : t ∈ c :: l' := getLast?_mem _ t h
      rcases List.mem_cons.1 hx with rfl | hx'
      · exact hb t ht
      · exact ih hl (fun y hy => hrefl y (List.mem_cons.2 (Or.inr hy))) t h x hx'

theorem getLast?_isSome_of_ne_nil : ∀ (l : List α), l ≠ [] → ∃ t, l.getLast? = some t := by
  intro l
  induction l with
  | nil => intro h; exact absurd rfl h
  | cons b l ih =>
    intro _
    cases l with
    | nil => exact ⟨b, rfl⟩
    | cons c l' =>
      rcases ih (by simp) with ⟨t, ht⟩
      exact ⟨t, by rw [List.getLast?_cons_cons]; exact ht⟩

/-! ### The remote cli release feed (`getNpmReleases` / `NPMIST.latestVersion`)

`getNpmReleases(page)` asks the release-listing collaborator for one page of
the `npm/cli` feed, keeps the `tag_name` of each release, filters to the
strict `^v\d+\.\d+\.\d+$` shape and sorts ascending with `semver.compare`.
The collaborator is modelled as a function `pages : Nat → List String` from
the page number to that page's tag names. -/

/-- The `/^v\d+\.\d+\.\d+$/` test: a leading `v` then three dot-separated
nonempty digit runs and nothing else. -/
def isStrictVTag (s : String) : Bool :=
  match s.data with
  | 'v' :: rest =>
    let p1 := rest.span Char.isDigit
    match p1.1, p1.2 with
    | [], _ => false
    | _ :: _, '.' :: r2 =>
      let p2 := r2.span Char.isDigit
      match p2.1, p2.2 with
      | [], _ => false
      | _ :: _, '.' :: r4 =>
        let p3 := r4.span Char.isDigit
        !p3.1.isEmpty && p3.2.isEmpty
      | _, _ => false
    | _, _ => false
  | _ => false

/-- The order `semver.compare` induces on tag strings (used as the sort
comparator; only applied to strings that parse). -/
def cmpLeTag (a b : String) : Bool := tLe (semver.parseD a) (semver.parseD b)

/-- `getNpmReleases` from src/lib/npm.js lines 137-147: one feed page mapped
to tag names, filtered to strict `v`-tags, sorted ascending. -/
def getNpmReleases (pages : Nat → List String) (page : Nat) : List String :=
  sortBy cmpLeTag ((pages page).filter isStrictVTag)

/-- The page-fetch loop of `NPMIST.latestVersion` (src/lib/npm.js lines
153-163), with explicit fuel standing for the number of loop iterations the
run is observed for: `none` means the loop has not produced a result within
`fuel` fetches (in particular, a loop that never terminates yields `none` for
every fuel).  On success the returned `Nat` counts the pages fetched. -/
def latestVersionAux (pages : Nat → List String) : Nat → Nat → Nat → Option (String × Nat)
| 0, _, _ => none
| fuel + 1, page, fetched =>
  let releases := getNpmReleases pages page
  match releases.getLast? with
  | some t => some (t, fetched + 1)
  | none => latestVersionAux pages fuel (page + 1) (fetched + 1)

/-- `NPMIST.latestVersion`: loop from page 1 while the filtered page is
empty; return the last (greatest) element of the first nonempty page. -/
def latestVersion (pages : Nat → List String) (fuel : Nat) : Option (String × Nat) :=
  latestVersionAux pages fuel 1 0

/-! ### `NPMIST.listAvailable` (src/lib/npm.js lines 73-99)

`octokit.paginate(..., response => response.data.map(r => r.tag_name))`
flattens each feed to a list of tag-name strings.  The subsequent filter
`cli.filter(release => release.name.indexOf(':') < 0)` therefore runs on
strings: in JavaScript, `release.name` on a string value is `undefined`, and
`undefined.indexOf(':')` throws a `TypeError`, rejecting the promise.  The
callback is modelled as a fallible step so the fault is visible. -/

/-- One release entry of the upstream feeds, as delivered by `listReleases`. -/
structure Release where
  tag_name : String
  name : String

/-- Effectful `Array.prototype.filter`: the first callback exception aborts
the whole filter. -/
def filterE (f : α → Except String Bool) : List α → Except String (List α)
| [] => .ok []
| a :: l =>
  match f a with
  | .error e => .error e
  | .ok b =>
    match filterE f l with
    | .error e => .error e
    | .ok r => .ok (if b then a :: r else r)

/-- The filter callback `release => release.name.indexOf(':') < 0` as it
executes on an element of `cli`.  `cli` holds tag-name strings (the paginate
mapping already projected each release to `tag_name`), a string has no `name`
property, so the member access yields `undefined` and the `indexOf` call
throws. -/
def tagNameColonTest (_tag : String) : Except String Bool :=
  Except.error "TypeError: Cannot read properties of undefined (reading \x27indexOf\x27)"

/-- `NPMIST.listAvailable`: fetch both feeds, map them to tag names, filter
the `npm/cli` feed by release name, and concatenate. -/
def listAvailable (npmFeed cliFeed : List Release) : Except String (List String) :=
  let npm := npmFeed.map Release.tag_name
  let cli := cliFeed.map Release.tag_name
  match filterE tagNameColonTest cli with
  | .error e => .error e
  | .ok cliF => .ok (npm ++ cliF)

/-! ### `NPMIST.resolveVersion` (src/lib/npm.js lines 225-259) -/

/-- The NoMatch message built at src/lib/npm.js line 251. -/
def noMatchMsg (v : String) : String :=
  "Version spec, \x22" ++ v ++ "\x22, didn\x27t match any version"

/-- The collaborators `resolveVersion` consults, as resolved values: the
paginated cli feed (with loop fuel), the host-runtime matching result, and
the outcome of `listAvailable`. -/
structure Env where
  pages : Nat → List String
  fuel : Nat
  matching : Except String String
  available : Except String (List String)

/-- `NPMIST.resolveVersion`.  The result is `none` when the callback is never
invoked: the `latest` and `match` branches attach no rejection handler, so a
collaborator failure (or a never-terminating page loop) leaves the caller
waiting forever. -/
def resolveVersion (env : Env) (v : String) : Option (Except String String) :=
  if v = "latest" ∨ v = "" then
    match latestVersion env.pages env.fuel with
    | some (tag, _) => some (.ok tag)
    | none => none
  else if v = "match" then
    match env.matching with
    | .ok ver => some (.ok ver)
    | .error _ => none
  else
    match env.available with
    | .error e => some (.error e)
    | .ok available =>
      let version := semver.clean v
      let version := if semver.validRange v then semver.maxSatisfying available v else version
      match version with
      | none => some (.error (noMatchMsg v))
      | some ver => some (.ok ver)

/-! ### `NPMIST.install` and `NPMIST.remove` (src/lib/npm.js lines 267-341)

The install repository is modelled as the list of version-named directories
under `repoPath`.  The download/extract pipeline and the symlink-repair walk
are external steps whose outcomes are passed in (`none` = success).  The
`Bool` in `install`'s result records whether the download pipeline ran, i.e.
whether any network activity happened. -/

/-- Errors the two operations report.  `invalidVersion` is
`new Error('Invalid version')`; the other constructors carry a propagated
collaborator message verbatim. -/
inductive NpmError
| invalidVersion : NpmError
| fsError : String → NpmError
| downloadFailed : String → NpmError
deriving DecidableEq

/-- The install repository: directory names present under `repoPath`. -/
structure FS where
  dirs : List String
deriving DecidableEq

/-- `NPMIST.install`: clean the specifier (`semver.clean` then `semver.valid`
on its result, which fails exactly when cleaning fails), bail out with
success if the target directory exists, otherwise `mkdirp` the directory, run
the download+extract pipeline, and for versions ≥ 8.0.0 run the symlink
repair; a pipeline or repair failure is propagated with the partially
created directory left in place. -/
def install (fs : FS) (v : String) (downloadResult : Option String)
    (repairResult : Option String) : Except NpmError String × FS × Bool :=
  match semver.clean v with
  | none => (.error .invalidVersion, fs, false)
  | some version =>
    if version ∈ fs.dirs then (.ok version, fs, false)
    else
      let fs' : FS := ⟨version :: fs.dirs⟩
      match downloadResult with
      | some e => (.error (.downloadFailed e), fs', true)
      | none =>
        if tLe (8, 0, 0) (semver.parseD version) then
          match repairResult with
          | some e => (.error (.fsError e), fs', true)
          | none => (.ok version, fs', true)
        else (.ok version, fs', true)

/-- `NPMIST.remove`: clean/validate the specifier, succeed trivially when the
directory is absent, otherwise `rimraf` it and propagate the outcome
(`rimrafResult`: `none` = deletion succeeded). -/
def remove (fs : FS) (v : String) (rimrafResult : Option String) :
    Except NpmError String × FS :=
  match semver.clean v with
  | none => (.error .invalidVersion, fs)
  | some version =>
    if version ∈ fs.dirs then
      match rimrafResult with
      | none => (.ok version, ⟨fs.dirs.erase version⟩)
      | some e => (.error (.fsError e), fs)
    else (.ok version, fs)

/-! ### `NPMIST.downloadUrl` (src/lib/npm.js lines 186-189) -/

/-- Does `pat` occur at the head of the list? -/
def leadsWith : List Char → List Char → Bool
| [], _ => true
| _ :: _, [] => false
| p :: ps, c :: cs => p = c && leadsWith ps cs

/-- JavaScript `String.prototype.replace` with string arguments: replace the
first occurrence of the pattern only.  (The `$`-substitution patterns of the
replacement string are not modelled; no replacement used here contains
`$`.) -/
def jsReplaceFirstL (pat repl : List Char) : List Char → List Char
| [] => if leadsWith pat [] then repl ++ List.drop pat.length [] else []
| c :: cs =>
  if leadsWith pat (c :: cs) then repl ++ List.drop pat.length (c :: cs)
  else c :: jsReplaceFirstL pat repl cs

def jsReplaceFirst (s pat repl : String) : String :=
  ⟨jsReplaceFirstL pat.data repl.data s.data⟩

/-- `NPMIST.downloadUrl`:
`'https://codeload.github.com/npm/cli/tar.gz/vVERSION'.replace('VERSION', version.replace('v',''))`. -/
def downloadUrl (version : String) : String :=
  jsReplaceFirst "https://codeload.github.com/npm/cli/tar.gz/vVERSION" "VERSION"
    (jsReplaceFirst version "v" "")

/-- Removal of the first occurrence of the character `v`, anywhere in the
string (the reference behaviour `downloadUrl` is compared against). -/
def removeFirstV : List Char → List Char
| [] => []
| c :: cs => if c = 'v' then cs else c :: removeFirstV cs

/-! ### `NPMIST.listInstalled` (src/lib/npm.js lines 106-135)

The directory listing is the input list; the function filters it with
`semver.valid` and sorts it with the comparator
`(v1, v2) => compareable(v1) > compareable(v2) ? 1 : -1`, i.e. ascending by
the comparable projection.  (The `installedCache` memoisation only shortcuts
repeated calls and does not change the produced list.) -/

/-- Modelled from the spec: `vermanager.compareable` (lib/versions.js, which
is not part of the sources) — "a custom comparable projection of semantic
version (not lexical string order)" whose order is ascending semantic order;
modelled as the parsed version triple under lexicographic order. -/
def compareable (v : String) : Triple := semver.parseD v

/-- `NPMIST.listInstalled` applied to a directory listing. -/
def listInstalled (ls : List String) : List String :=
  sortBy (fun a b => tLe (compareable a) (compareable b))
    (ls.filter (fun s => (semver.valid s).isSome))

/-! ### `NPMIST.getLocal` (src/lib/npm.js lines 395-413)

The working directory is split on `\`, and the search pops the last segment
until either a `.npm-version` file is readable or no segments remain, in
which case the callback fires with no arguments (`none` here).  The
filesystem is a partial map from file path to content. -/

/-- Join path segments with backslashes, as `dirArray.join('\\')` does. -/
def joinBS : List String → String
| [] => ""
| [d] => d
| d :: ds => d ++ "\x5c" ++ joinBS ds

/-- The recursive `search()` of `getLocal`. -/
def searchLocal (fsFiles : String → Option String) : List String → Option (String × String)
| [] => none
| d :: ds =>
  let file := joinBS (d :: ds) ++ "\x5c.npm-version"
  match fsFiles file with
  | some content => some (strTrim content, file)
  | none => searchLocal fsFiles (d :: ds).dropLast
termination_by l => l.length
decreasing_by simp [List.length_dropLast]

/-- `NPMIST.getLocal`, given the split working directory. -/
def getLocal (fsFiles : String → Option String) (cwdSegs : List String) :
    Option (String × String) :=
  searchLocal fsFiles cwdSegs

/-! ### `resolveLinkedWorkspaces` (src/lib/npm.js lines 46-67)

A directory is a list of named entries.  The walk iterates over the `readdir`
snapshot of a directory: a symbolic link is unlinked and recreated as a
junction, or — when junction creation fails (`jOk = false`) — the link's
target (`path.join(dirPath, linkTarget)`, i.e. the sibling of that name) is
renamed onto the link's path; a directory is walked recursively; files are
ignored.  Sibling sub-walks run concurrently in the source and only their
counts are summed; the model fixes the interleaving in which each entry's
work completes at its iteration point.  Junction entries only arise as
outputs of the repair itself, never in freshly extracted trees, so the walk
does not revisit them. -/

inductive FsTree
| file : String → FsTree
| dir : String → List FsTree → FsTree
| link : String → String → FsTree
| junction : String → String → FsTree

def entryName : FsTree → String
| .file n => n
| .dir n _ => n
| .link n _ => n
| .junction n _ => n

/-- Rename an entry, keeping its content (the effect of `fs.rename`). -/
def setName : FsTree → String → FsTree
| .file _, m => .file m
| .dir _ c, m => .dir m c
| .link _ t, m => .link m t
| .junction _ t, m => .junction m t

def lookupEntry (l : List FsTree) (n : String) : Option FsTree :=
  l.find? (fun e => entryName e = n)

def removeEntry (l : List FsTree) (n : String) : List FsTree :=
  l.filter (fun e => entryName e ≠ n)

def setEntry (l : List FsTree) (n : String) (e' : FsTree) : List FsTree :=
  l.map (fun e => if entryName e = n then e' else e)

/-- The walk over one directory: first argument the `readdir` snapshot that
drives the iteration, second the directory's current contents.  Returns the
repaired contents and the repaired-link count, or the first filesystem error
(a rename whose source is missing, or a recursion into a directory that a
previous rename moved away). -/
def resolveLinkedWorkspacesAux (jOk : Bool) :
    List FsTree → List FsTree → Except String (List FsTree × Nat)
| [], cur => .ok (cur, 0)
| FsTree.file _ :: rest, cur => resolveLinkedWorkspacesAux jOk rest cur
| FsTree.junction _ _ :: rest, cur => resolveLinkedWorkspacesAux jOk rest cur
| FsTree.link n t :: rest, cur =>
  let cur1 := removeEntry cur n
  if jOk then
    match resolveLinkedWorkspacesAux jOk rest (cur1 ++ [FsTree.junction n t]) with
    | .error e => .error e
    | .ok (res, k) => .ok (res, k + 1)
  else
    match lookupEntry cur1 t with
    | some src =>
      match resolveLinkedWorkspacesAux jOk rest (removeEntry cur1 t ++ [setName src n]) with
      | .error e => .error e
      | .ok (res, k) => .ok (res, k + 1)
    | none => .error "ENOENT: no such file or directory, rename"
| FsTree.dir n c :: rest, cur =>
  match lookupEntry cur n with
  | some _ =>
    match resolveLinkedWorkspacesAux jOk c c with
    | .error e => .error e
    | .ok (c', k) =>
      match resolveLinkedWorkspacesAux jOk rest (setEntry cur n (FsTree.dir n c')) with
      | .error e => .error e
      | .ok (res, k') => .ok (res, k' + k)
  | none => .error "ENOENT: no such file or directory, scandir"
termination_by snap _ => sizeOf snap

/-- `resolveLinkedWorkspaces` on a directory with the given contents. -/
def resolveLinkedWorkspaces (jOk : Bool) (children : List FsTree) :
    Except String (List FsTree × Nat) :=
  resolveLinkedWorkspacesAux jOk children children

/-- Symbolic links in a subtree, counted the way the walk visits them:
links at each level plus the links inside non-link directories. -/
def countLinks : List FsTree → Nat
| [] => 0
| FsTree.link _ _ :: rest => countLinks rest + 1
| FsTree.dir _ c :: rest => countLinks c + countLinks rest
| FsTree.file _ :: rest => countLinks rest
| FsTree.junction _ _ :: rest => countLinks rest
termination_by l => sizeOf l

/-! ## Claims -/

/-- C4: `install(v)` is idempotent — for every valid version whose target
directory already exists (in particular after a first successful install
with no intervening remove), `install` returns success immediately with the
same cleaned version, leaves the repository unchanged and performs no
download activity. -/
theorem install_idempotent :
    (∀ (fs : FS) (v version : String) (dl rp : Option String),
        semver.clean v = some version → version ∈ fs.dirs →
        install fs v dl rp = (.ok version, fs, false))
    ∧ (∀ (fs fs2 : FS) (v version : String) (dl rp dl2 rp2 : Option String) (n : Bool),
        install fs v dl rp = (.ok version, fs2, n) →
        install fs2 v dl2 rp2 = (.ok version, fs2, false)) := by
  constructor
  · intro fs v version dl rp hclean hmem
    simp [install, hclean, hmem]
  · intro fs fs2 v version dl rp dl2 rp2 n h
    cases hclean : semver.clean v with
    | none => simp [install, hclean] at h
    | some ver =>
      by_cases hmem : ver ∈ fs.dirs
      · simp [install, hclean, hmem] at h
        obtain ⟨rfl, rfl, -⟩ := h
        simp [install, hclean, hmem]
      · have hdirs : version = ver ∧ fs2 = FS.mk (ver :: fs.dirs) := by
          cases dl with
          | some e => simp [install, hclean, hmem] at h
          | none =>
            by_cases hge : tLe (8, 0, 0) (semver.parseD ver) = true
            · cases rp with
              | some e => simp [install, hclean, hmem, hge, -Prod.mk_zero_zero] at h
              | none =>
                simp [install, hclean, hmem, hge, -Prod.mk_zero_zero] at h
                exact ⟨h.1.symm, h.2.1.symm⟩
            · simp [install, hclean, hmem, hge, -Prod.mk_zero_zero] at h
              exact ⟨h.1.symm, h.2.1.symm⟩
        obtain ⟨rfl, rfl⟩ := hdirs
        simp [install, hclean]

/-- C4 witness: a concrete valid version with its directory present, and a
concrete first-install/second-install pair. -/
theorem install_idempotent_witness :
    install ⟨["1.2.3"]⟩ "v1.2.3" none none = (.ok "1.2.3", ⟨["1.2.3"]⟩, false)
    ∧ install ⟨["8.1.0", "9.9.9"]⟩ "8.1.0" none none
        = (.ok "8.1.0", ⟨["8.1.0", "9.9.9"]⟩, false) := by
  constructor
  · exact install_idempotent.1 ⟨["1.2.3"]⟩ "v1.2.3" "1.2.3" none none (by decide) (by decide)
  · exact install_idempotent.2 ⟨["9.9.9"]⟩ ⟨["8.1.0", "9.9.9"]⟩ "8.1.0" "8.1.0"
      none none none none true rfl

/-- C5: `remove(v)` fails with InvalidVersion exactly when the specifier does
not clean to a valid version; for a valid version with an absent directory it
succeeds reporting the cleaned version and deletes nothing; otherwise it
deletes the directory and propagates a deletion failure verbatim. -/
theorem remove_spec :
    ∀ (fs : FS) (v : String) (rr : Option String),
      ((remove fs v rr).1 = .error .invalidVersion ↔ semver.clean v = none)
      ∧ (∀ version, semver.clean v = some version → version ∉ fs.dirs →
          remove fs v rr = (.ok version, fs))
      ∧ (∀ version, semver.clean v = some version → version ∈ fs.dirs →
          (rr = none → remove fs v rr = (.ok version, ⟨fs.dirs.erase version⟩))
          ∧ (∀ e, rr = some e → remove fs v rr = (.error (.fsError e), fs))) := by
  intro fs v rr
  refine ⟨?_, ?_, ?_⟩
  · cases hclean : semver.clean v with
    | none => simp [remove, hclean]
    | some ver =>
      by_cases hmem : ver ∈ fs.dirs
      · cases rr <;> simp [remove, hclean, hmem]
      · simp [remove, hclean, hmem]
  · intro version hclean hmem
    simp [remove, hclean, hmem]
  · intro version hclean hmem
    constructor
    · intro hrr; subst hrr; simp [remove, hclean, hmem]
    · intro e hrr; subst hrr; simp [remove, hclean, hmem]

/-- C5 witness: an invalid specifier, a valid absent version, and a valid
present version with both deletion outcomes. -/
theorem remove_spec_witness :
    remove ⟨["1.0.0"]⟩ "README" none = (.error .invalidVersion, ⟨["1.0.0"]⟩)
    ∧ remove ⟨["1.0.0"]⟩ "v2.0.0" none = (.ok "2.0.0", ⟨["1.0.0"]⟩)
    ∧ remove ⟨["1.0.0"]⟩ "1.0.0" none = (.ok "1.0.0", ⟨[]⟩)
    ∧ remove ⟨["1.0.0"]⟩ "1.0.0" (some "EPERM") = (.error (.fsError "EPERM"), ⟨["1.0.0"]⟩) := by
  refine ⟨rfl, ?_, ?_, ?_⟩
  · exact (remove_spec ⟨["1.0.0"]⟩ "v2.0.0" none).2.1 "2.0.0" (by decide) (by decide)
  · exact ((remove_spec ⟨["1.0.0"]⟩ "1.0.0" none).2.2 "1.0.0" (by decide) (by decide)).1 rfl
  · exact ((remove_spec ⟨["1.0.0"]⟩ "1.0.0" (some "EPERM")).2.2 "1.0.0" (by decide)
      (by decide)).2 "EPERM" rfl

/-- C9 counterexample: the claim says only a leading `v` is stripped, but
`version.replace('v','')` removes the first `v` occurring anywhere: for the
prerelease-style version `8.1.0-preview` the produced URL drops the `v` of
`preview`. -/
theorem downloadUrl_claim_counterexample :
    downloadUrl "8.1.0-preview" ≠ "https://codeload.github.com/npm/cli/tar.gz/v8.1.0-preview"
    ∧ downloadUrl "8.1.0-preview"
        = "https://codeload.github.com/npm/cli/tar.gz/v8.1.0-preiew" := by
  exact ⟨by decide, by decide⟩

theorem jsReplaceFirstL_v :
    ∀ cs : List Char, jsReplaceFirstL ['v'] [] cs = removeFirstV cs := by
  intro cs
  induction cs with
  | nil => rfl
  | cons c cs ih =>
    by_cases hc : c = 'v'
    · subst hc
      simp [jsReplaceFirstL, leadsWith, removeFirstV]
    · have hc2 : ¬ ('v' = c) := fun hh => hc hh.symm
      simp [jsReplaceFirstL, leadsWith, removeFirstV, hc, hc2, ih]

theorem jsReplaceFirst_template (x : String) :
    jsReplaceFirst "https://codeload.github.com/npm/cli/tar.gz/vVERSION" "VERSION" x =
      "https://codeload.github.com/npm/cli/tar.gz/v" ++ x := by
  have h : jsReplaceFirstL ("VERSION".data) x.data
      ("https://codeload.github.com/npm/cli/tar.gz/vVERSION".data)
      = "https://codeload.github.com/npm/cli/tar.gz/v".data ++ (x.data ++ []) := rfl
  apply String.ext
  show jsReplaceFirstL ("VERSION".data) x.data
      ("https://codeload.github.com/npm/cli/tar.gz/vVERSION".data)
      = ("https://codeload.github.com/npm/cli/tar.gz/v" ++ x).data
  rw [h, List.append_nil]
  rfl

/-- C9 (amended): `downloadUrl(version)` is the template prefix followed by
`version` with the first occurrence of the character `v` — wherever it is —
removed; the rest of the version string is substituted unchanged. -/
theorem downloadUrl_strip_first_v :
    ∀ version : String,
      downloadUrl version =
        "https://codeload.github.com/npm/cli/tar.gz/v"
          ++ (⟨removeFirstV version.data⟩ : String) := by
  intro v
  rw [downloadUrl]
  have h1 : jsReplaceFirst v "v" "" = ⟨removeFirstV v.data⟩ :=
    String.ext (jsReplaceFirstL_v v.data)
  rw [h1, jsReplaceFirst_template]

/-- C9 witness: the amended statement evaluated at `v8.1.0`. -/
theorem downloadUrl_strip_first_v_witness :
    downloadUrl "v8.1.0" = "https://codeload.github.com/npm/cli/tar.gz/v8.1.0" := by
  have h := downloadUrl_strip_first_v "v8.1.0"
  simpa using h

/-- C3 counterexample: for an `npm/cli` release named `v8.1.0` (no `:` in the
name) the claim predicts the entry is excluded and the merged pool is `ok []`;
the code does not produce that pool (the pagination mapping has already
discarded release names, and the name-based filter faults on the tag
string). -/
theorem listAvailable_claim_counterexample :
    listAvailable [] [⟨"v8.1.0", "v8.1.0"⟩] ≠ Except.ok []
    ∧ listAvailable [] [⟨"v8.1.0", "v8.1.0"⟩]
        = Except.error
            "TypeError: Cannot read properties of undefined (reading \x27indexOf\x27)" := by
  exact ⟨fun h => Except.noConfusion h, rfl⟩

/-- C3 (amended): `listAvailable` never filters by release name — the
pagination step reduces both feeds to tag-name strings, so the name-based
filter throws a TypeError as soon as the second feed is nonempty; with an
empty second feed the merged pool is exactly the first feed's tag names,
nothing excluded. -/
theorem listAvailable_actual :
    ∀ npmFeed cliFeed : List Release,
      (cliFeed = [] → listAvailable npmFeed cliFeed = .ok (npmFeed.map Release.tag_name))
      ∧ (cliFeed ≠ [] →
          listAvailable npmFeed cliFeed =
            .error "TypeError: Cannot read properties of undefined (reading \x27indexOf\x27)") := by
  intro npmFeed cliFeed
  cases cliFeed with
  | nil =>
    refine ⟨fun _ => ?_, fun h => absurd rfl h⟩
    simp [listAvailable, filterE]
  | cons r l =>
    refine ⟨fun h => by simp at h, fun _ => ?_⟩
    simp [listAvailable, filterE, tagNameColonTest]

/-- C3 witness: the amended statement at an empty and at a nonempty cli
feed. -/
theorem listAvailable_actual_witness :
    listAvailable [⟨"v1.0.0", "v1.0.0"⟩] [] = .ok ["v1.0.0"]
    ∧ listAvailable [] [⟨"libnpmaccess: v4.0.0", "libnpmaccess: v4.0.0"⟩]
        = .error "TypeError: Cannot read properties of undefined (reading \x27indexOf\x27)" := by
  constructor
  · exact (listAvailable_actual [⟨"v1.0.0", "v1.0.0"⟩] []).1 rfl
  · exact (listAvailable_actual [] [⟨"libnpmaccess: v4.0.0", "libnpmaccess: v4.0.0"⟩]).2
      (by simp)

/-- The concrete paginated feed of C2's scenario: the first page has no
qualifying entry, the second page is exactly the tag `v8.1.0`. -/
def pagesC2 : Nat → List String :=
  fun p => if p = 1 then ["npm-v8.0.0"] else if p = 2 then ["v8.1.0"] else []

/-- The environment of C2's scenario (the other collaborators are not
consulted on the empty-specifier path). -/
def envC2 : Env := ⟨pagesC2, 5, Except.error "", Except.ok []⟩

/-- C2 counterexample: with the first page filtering to nothing and the
second page `[v8.1.0]`, the empty specifier resolves to the raw tag
`v8.1.0`, not to `8.1.0` as claimed — nothing on the `latest` path strips
the `v` prefix. -/
theorem resolveVersion_latest_tag_counterexample :
    resolveVersion envC2 "" = some (Except.ok "v8.1.0")
    ∧ ("v8.1.0" : String) ≠ "8.1.0" := ⟨rfl, by decide⟩

/-- C2 (amended): in that scenario the empty specifier resolves to the tag
`v8.1.0` (prefix retained) after fetching the second page: the first page
yields zero qualifying entries and the loop retries with page 2, so two
pages are fetched. -/
theorem resolveVersion_latest_second_page :
    resolveVersion envC2 "" = some (Except.ok "v8.1.0")
    ∧ latestVersion pagesC2 5 = some ("v8.1.0", 2)
    ∧ getNpmReleases pagesC2 1 = [] := ⟨rfl, by decide, by decide⟩

/-- C8: `listInstalled` keeps exactly the directory entries that are valid
semantic versions (a stray `README` is excluded) and returns them in
ascending semantic order, whatever order the directory listing used. -/
theorem listInstalled_sorted :
    ∀ ls : List String,
      (listInstalled ls).Pairwise
        (fun a b => tLe (semver.parseD a) (semver.parseD b) = true)
      ∧ ∀ x, x ∈ listInstalled ls ↔ x ∈ ls ∧ (semver.valid x).isSome = true := by
  intro ls
  constructor
  · exact pairwise_sortBy (fun a b => tLe (compareable a) (compareable b))
      (fun x y => tLe_total _ _) (fun x y z hxy hyz => tLe_trans hxy hyz) _
  · intro x
    rw [listInstalled, mem_sortBy, List.mem_filter]

/-- C8 witness: the characterisation applied to a listing with a stray
`README`, plus the concrete sorted output. -/
theorem listInstalled_sorted_witness :
    ("README" ∈ listInstalled ["README", "v1.2.3", "0.1.0"] ↔
      "README" ∈ ["README", "v1.2.3", "0.1.0"] ∧ (semver.valid "README").isSome = true)
    ∧ listInstalled ["README", "v1.2.3", "0.1.0"] = ["0.1.0", "v1.2.3"] :=
  ⟨(listInstalled_sorted ["README", "v1.2.3", "0.1.0"]).2 "README", by decide⟩

theorem searchLocal_none (fsFiles : String → Option String) :
    ∀ (n : Nat) (segs : List String), segs.length ≤ n →
      (∀ k, 0 < k → k ≤ segs.length →
        fsFiles (joinBS (segs.take k) ++ "\x5c.npm-version") = none) →
      searchLocal fsFiles segs = none := by
  intro n
  induction n with
  | zero =>
    intro segs hlen _
    cases segs with
    | nil => simp [searchLocal]
    | cons d ds => simp at hlen
  | succ n ih =>
    intro segs hlen habs
    cases segs with
    | nil => simp [searchLocal]
    | cons d ds =>
      have hfile : fsFiles (joinBS (d :: ds) ++ "\x5c.npm-version") = none := by
        have h := habs (d :: ds).length (by simp) (le_refl _)
        rwa [List.take_length] at h
      simp only [searchLocal, hfile]
      apply ih
      · simp only [List.length_dropLast, List.length_cons] at hlen ⊢
        omega
      · intro k hk hkle
        have hlt : k ≤ ds.length := by
          simpa [List.length_dropLast] using hkle
        have htake : (d :: ds).dropLast.take k = (d :: ds).take k := by
          rw [List.dropLast_eq_take, List.take_take]
          congr 1
          simp only [List.length_cons]
          omega
        rw [htake]
        exact habs k hk (by simp only [List.length_cons]; omega)

/-- C7: `getLocal` searches upward one path segment at a time — from
`C:\a\b\c` with the version file present only at `C:\a` it returns that
file's trimmed content together with its path; and when no ancestor up to
the top of the path has the file, it reports absence (the callback fires
with no arguments), not an error. -/
theorem getLocal_upward :
    (∀ (fsFiles : String → Option String) (content : String),
        fsFiles "C:\x5ca\x5cb\x5cc\x5c.npm-version" = none →
        fsFiles "C:\x5ca\x5cb\x5c.npm-version" = none →
        fsFiles "C:\x5ca\x5c.npm-version" = some content →
        getLocal fsFiles ["C:", "a", "b", "c"]
          = some (strTrim content, "C:\x5ca\x5c.npm-version"))
    ∧ (∀ (fsFiles : String → Option String) (segs : List String),
        (∀ k, 0 < k → k ≤ segs.length →
          fsFiles (joinBS (segs.take k) ++ "\x5c.npm-version") = none) →
        getLocal fsFiles segs = none) := by
  constructor
  · intro fsFiles content h1 h2 h3
    simp [getLocal, searchLocal, joinBS, h1, h2, h3]
  · intro fsFiles segs habs
    exact searchLocal_none fsFiles segs.length segs (le_refl _) habs

/-- A one-file filesystem for the C7 witness. -/
def fsW : String → Option String :=
  fun p => if p = "C:\x5ca\x5c.npm-version" then some " 1.2.3 " else none

/-- C7 witness: the upward search on the concrete filesystem, and the
no-ancestor case. -/
theorem getLocal_upward_witness :
    getLocal fsW ["C:", "a", "b", "c"] = some (strTrim " 1.2.3 ", "C:\x5ca\x5c.npm-version")
    ∧ strTrim " 1.2.3 " = "1.2.3"
    ∧ getLocal (fun _ => none) ["C:", "a"] = none :=
  ⟨getLocal_upward.1 fsW " 1.2.3 " rfl rfl rfl, by decide,
    getLocal_upward.2 (fun _ => none) ["C:", "a"] (fun _ _ _ => rfl)⟩

theorem repair_count (jOk : Bool) (snap cur : List FsTree) :
    ∀ res k, resolveLinkedWorkspacesAux jOk snap cur = .ok (res, k) →
      k = countLinks snap := by
  induction snap, cur using resolveLinkedWorkspacesAux.induct jOk with
  | case1 cur =>
    intro res k h
    simp only [resolveLinkedWorkspacesAux] at h
    simp at h
    simp [countLinks, h]
  | case2 _ rest cur ih =>
    intro res k h
    simp only [resolveLinkedWorkspacesAux] at h
    rw [countLinks]
    exact ih res k h
  | case3 _ _ rest cur ih =>
    intro res k h
    simp only [resolveLinkedWorkspacesAux] at h
    rw [countLinks]
    exact ih res k h
  | case4 n t rest cur cur1 hj e herr ih =>
    intro res k h
    subst hj
    have herr2 : resolveLinkedWorkspacesAux true rest
        (removeEntry cur n ++ [FsTree.junction n t]) = .error e := herr
    simp [resolveLinkedWorkspacesAux, herr2] at h
  | case5 n t rest cur cur1 hj res0 k0 hok ih =>
    intro res k h
    subst hj
    have hok2 : resolveLinkedWorkspacesAux true rest
        (removeEntry cur n ++ [FsTree.junction n t]) = .ok (res0, k0) := hok
    simp [resolveLinkedWorkspacesAux, hok2] at h
    rw [countLinks]
    have hcount := ih res0 k0 hok
    omega
  | case6 n t rest cur cur1 hj src hsrc e herr ih =>
    intro res k h
    have hj2 : jOk = false := by
      cases jOk with
      | false => rfl
      | true => exact absurd rfl hj
    subst hj2
    have hsrc2 : lookupEntry (removeEntry cur n) t = some src := hsrc
    have herr2 : resolveLinkedWorkspacesAux false rest
        (removeEntry (removeEntry cur n) t ++ [setName src n]) = .error e := herr
    simp [resolveLinkedWorkspacesAux, hsrc2, herr2] at h
  | case7 n t rest cur cur1 hj src hsrc res0 k0 hok ih =>
    intro res k h
    have hj2 : jOk = false := by
      cases jOk with
      | false => rfl
      | true => exact absurd rfl hj
    subst hj2
    have hsrc2 : lookupEntry (removeEntry cur n) t = some src := hsrc
    have hok2 : resolveLinkedWorkspacesAux false rest
        (removeEntry (removeEntry cur n) t ++ [setName src n]) = .ok (res0, k0) := hok
    simp [resolveLinkedWorkspacesAux, hsrc2, hok2] at h
    rw [countLinks]
    have hcount := ih res0 k0 hok
    omega
  | case8 n t rest cur cur1 hj hsrc =>
    intro res k h
    have hj2 : jOk = false := by
      cases jOk with
      | false => rfl
      | true => exact absurd rfl hj
    subst hj2
    have hsrc2 : lookupEntry (removeEntry cur n) t = none := hsrc
    simp [resolveLinkedWorkspacesAux, hsrc2] at h
  | case9 n c rest cur src hsrc e herr ih =>
    intro res k h
    simp [resolveLinkedWorkspacesAux, hsrc, herr] at h
  | case10 n c rest cur src hsrc res0 k0 hok e herr ih1 ih2 =>
    intro res k h
    simp [resolveLinkedWorkspacesAux, hsrc, hok, herr] at h
  | case11 n c rest cur src hsrc res0 k0 hok res1 k1 hok1 ih1 ih2 =>
    intro res k h
    simp [resolveLinkedWorkspacesAux, hsrc, hok, hok1] at h
    rw [countLinks]
    have hc1 := ih1 res0 k0 hok
    have hc2 := ih2 res1 k1 hok1
    omega
  | case12 n c rest cur hsrc =>
    intro res k h
    simp [resolveLinkedWorkspacesAux, hsrc] at h

/-- C6: the walk returns the repaired-link count summed across the whole
subtree; and on a tree with exactly one symbolic link whose junction
creation fails, the link's target directory ends up physically relocated to
the link's original path with the reported count `1`. -/
theorem symlinkRepair_count :
    (∀ (jOk : Bool) (children res : List FsTree) (k : Nat),
        resolveLinkedWorkspaces jOk children = .ok (res, k) → k = countLinks children)
    ∧ resolveLinkedWorkspaces false
        [FsTree.dir "real" [FsTree.file "x"], FsTree.link "pkg" "real"] =
        .ok ([FsTree.dir "pkg" [FsTree.file "x"]], 1) := by
  constructor
  · intro jOk children res k h
    exact repair_count jOk children children res k h
  · simp [resolveLinkedWorkspaces, resolveLinkedWorkspacesAux, lookupEntry, removeEntry,
      setEntry, entryName, setName, List.find?, List.filter]

/-- C6 witness: the count property applied to the concrete one-link tree. -/
theorem symlinkRepair_count_witness :
    (1 : Nat) = countLinks [FsTree.dir "real" [FsTree.file "x"], FsTree.link "pkg" "real"] :=
  symlinkRepair_count.1 false _ _ 1 symlinkRepair_count.2

theorem latestAux_empty (pages : Nat → List String) :
    ∀ (fuel page fetched : Nat),
      (∀ p, page ≤ p → getNpmReleases pages p = []) →
      latestVersionAux pages fuel page fetched = none := by
  intro fuel
  induction fuel with
  | zero => intro page fetched _; rfl
  | succ fuel ih =>
    intro page fetched h
    have hp : getNpmReleases pages page = [] := h page (le_refl _)
    simp only [latestVersionAux, hp, List.getLast?_nil]
    exact ih (page + 1) (fetched + 1) (fun p hple => h p (by omega))

theorem latestAux_found (pages : Nat → List String) :
    ∀ (d fuel page fetched : Nat), d < fuel →
      (∀ p, page ≤ p → p < page + d → getNpmReleases pages p = []) →
      getNpmReleases pages (page + d) ≠ [] →
      ∃ t, latestVersionAux pages fuel page fetched = some (t, fetched + d + 1)
        ∧ t ∈ (pages (page + d)).filter isStrictVTag
        ∧ ∀ x ∈ (pages (page + d)).filter isStrictVTag, cmpLeTag x t = true := by
  intro d
  induction d with
  | zero =>
    intro fuel page fetched hfuel _ hne
    obtain ⟨fuel, rfl⟩ : ∃ f, fuel = f + 1 := ⟨fuel - 1, by omega⟩
    rw [Nat.add_zero] at hne ⊢
    obtain ⟨t, ht⟩ := getLast?_isSome_of_ne_nil (getNpmReleases pages page) hne
    refine ⟨t, ?_, ?_, ?_⟩
    · simp [latestVersionAux, ht]
    · exact (mem_sortBy _ t _).1 (getLast?_mem _ t ht)
    · intro x hx
      have hsorted := pairwise_sortBy cmpLeTag
        (fun a b => tLe_total _ _) (fun a b c h1 h2 => tLe_trans h1 h2)
        ((pages page).filter isStrictVTag)
      exact pairwise_getLast? _ hsorted (fun y _ => tLe_refl _) t ht x
        ((mem_sortBy _ x _).2 hx)
  | succ d ih =>
    intro fuel page fetched hfuel hempty hne
    obtain ⟨fuel, rfl⟩ : ∃ f, fuel = f + 1 := ⟨fuel - 1, by omega⟩
    have hp : getNpmReleases pages page = [] := hempty page (le_refl _) (by omega)
    have heq : page + (d + 1) = (page + 1) + d := by omega
    rw [heq] at hne
    obtain ⟨t, h1, h2, h3⟩ := ih fuel (page + 1) (fetched + 1) (by omega)
      (fun p hp1 hp2 => hempty p (by omega) (by omega)) hne
    refine ⟨t, ?_, by rw [heq]; exact h2, by rw [heq]; exact h3⟩
    simp only [latestVersionAux, hp, List.getLast?_nil]
    rw [h1]
    have : fetched + 1 + d + 1 = fetched + (d + 1) + 1 := by omega
    rw [this]

/-- C10: the `latestVersion` loop terminates exactly when some page has a
qualifying tag — if every page at or after 1 filters to empty, the loop
yields no result for any amount of fuel (it never terminates); and if page
`n` is the first page with a qualifying tag, then with at least `n` fuel the
loop stops after fetching exactly `n` pages and returns a maximum qualifying
tag of page `n` (its last element in `semver.compare` order). -/
theorem latestVersion_termination :
    (∀ (pages : Nat → List String) (n : Nat), 0 < n →
      (∀ p, 0 < p → p < n → getNpmReleases pages p = []) →
      getNpmReleases pages n ≠ [] →
      ∀ fuel, n ≤ fuel →
      ∃ t, latestVersion pages fuel = some (t, n)
        ∧ t ∈ (pages n).filter isStrictVTag
        ∧ ∀ x ∈ (pages n).filter isStrictVTag, cmpLeTag x t = true)
    ∧ (∀ (pages : Nat → List String) (fuel : Nat),
        (∀ p, 0 < p → getNpmReleases pages p = []) →
        latestVersion pages fuel = none) := by
  constructor
  · intro pages n hn hempty hne fuel hfuel
    have heq : 1 + (n - 1) = n := by omega
    obtain ⟨t, h1, h2, h3⟩ := latestAux_found pages (n - 1) fuel 1 0 (by omega)
      (fun p hp1 hp2 => hempty p (by omega) (by omega)) (by rw [heq]; exact hne)
    rw [heq] at h2 h3
    have hnum : (0 : Nat) + (n - 1) + 1 = n := by omega
    rw [hnum] at h1
    exact ⟨t, h1, h2, h3⟩
  · intro pages fuel h
    exact latestAux_empty pages fuel 1 0 (fun p hp => h p (by omega))

/-- The one-page feed of the C10 witness: only page 1 has qualifying tags. -/
def pagesW : Nat → List String := fun p => if p = 1 then ["v1.0.0", "v2.0.0"] else []

/-- C10 witness: a feed whose first page qualifies, and the everywhere-empty
feed. -/
theorem latestVersion_termination_witness :
    (∃ t, latestVersion pagesW 1 = some (t, 1)
      ∧ t ∈ (pagesW 1).filter isStrictVTag
      ∧ ∀ x ∈ (pagesW 1).filter isStrictVTag, cmpLeTag x t = true)
    ∧ latestVersion (fun _ => []) 5 = none := by
  constructor
  · exact latestVersion_termination.1 pagesW 1 (by decide)
      (fun p hp1 hp2 => by omega) (by decide) 1 (le_refl _)
  · exact latestVersion_termination.2 (fun _ => []) 5 (fun p _ => rfl)

/-- The running-maximum invariant of the `maxSatisfying` fold: over the
processed part `S`, a `none` accumulator means nothing satisfied, and a
`some m` accumulator is a satisfying element of `S` that dominates every
satisfying element of `S`. -/
def MaxInv (r : String) (S : List String) : Option String → Prop
| none => ∀ x ∈ S, semver.satisfies x r = false
| some m => m ∈ S ∧ semver.satisfies m r = true ∧
    ∀ x ∈ S, semver.satisfies x r = true →
      tLe (semver.parseD x) (semver.parseD m) = true

theorem maxSatStep_inv (r : String) :
    ∀ (l S : List String) (acc : Option String), MaxInv r S acc →
      MaxInv r (S ++ l) (l.foldl (semver.maxSatStep r) acc) := by
  intro l
  induction l with
  | nil => intro S acc h; simpa using h
  | cons v l ih =>
    intro S acc h
    have hstep : MaxInv r (S ++ [v]) (semver.maxSatStep r acc v) := by
      cases hs : semver.satisfies v r with
      | true =>
        cases acc with
        | none =>
          have hstepeq : semver.maxSatStep r none v = some v := by
            simp [semver.maxSatStep, hs]
          rw [hstepeq]
          refine ⟨by simp, hs, ?_⟩
          intro x hx hxs
          rcases List.mem_append.1 hx with hxS | hxv
          · exact absurd hxs (by simp [h x hxS])
          · rcases List.mem_singleton.1 hxv with rfl
            exact tLe_refl _
        | some m =>
          obtain ⟨hmem, hms, hmax⟩ := h
          by_cases hlt : tLt (semver.parseD m) (semver.parseD v) = true
          · have hstepeq : semver.maxSatStep r (some m) v = some v := by
              simp [semver.maxSatStep, hs, hlt]
            rw [hstepeq]
            refine ⟨by simp, hs, ?_⟩
            intro x hx hxs
            rcases List.mem_append.1 hx with hxS | hxv
            · exact tLe_of_tLe_of_tLt (hmax x hxS hxs) hlt
            · rcases List.mem_singleton.1 hxv with rfl
              exact tLe_refl _
          · have hstepeq : semver.maxSatStep r (some m) v = some m := by
              simp [semver.maxSatStep, hs, hlt]
            rw [hstepeq]
            refine ⟨List.mem_append.2 (Or.inl hmem), hms, ?_⟩
            intro x hx hxs
            rcases List.mem_append.1 hx with hxS | hxv
            · exact hmax x hxS hxs
            · rcases List.mem_singleton.1 hxv with rfl
              exact tLe_of_not_tLt hlt
      | false =>
        have hstepeq : semver.maxSatStep r acc v = acc := by
          simp [semver.maxSatStep, hs]
        rw [hstepeq]
        cases acc with
        | none =>
          intro x hx
          rcases List.mem_append.1 hx with hxS | hxv
          · exact h x hxS
          · rcases List.mem_singleton.1 hxv with rfl
            exact hs
        | some m =>
          obtain ⟨hmem, hms, hmax⟩ := h
          refine ⟨List.mem_append.2 (Or.inl hmem), hms, ?_⟩
          intro x hx hxs
          rcases List.mem_append.1 hx with hxS | hxv
          · exact hmax x hxS hxs
          · rcases List.mem_singleton.1 hxv with rfl
            exact absurd hxs (by simp [hs])
    have hres := ih (S ++ [v]) (semver.maxSatStep r acc v) hstep
    have hSeq : (S ++ [v]) ++ l = S ++ v :: l := by simp
    rw [hSeq] at hres
    exact hres

theorem maxSatisfying_spec (versions : List String) (r : String) :
    (∃ m, semver.maxSatisfying versions r = some m ∧ m ∈ versions
        ∧ semver.satisfies m r = true
        ∧ ∀ x ∈ versions, semver.satisfies x r = true →
            tLe (semver.parseD x) (semver.parseD m) = true)
    ∨ (semver.maxSatisfying versions r = none
        ∧ ∀ x ∈ versions, semver.satisfies x r = false) := by
  have h := maxSatStep_inv r versions [] none (by intro x hx; cases hx)
  rw [List.nil_append] at h
  have hfold : List.foldl (semver.maxSatStep r) none versions
      = semver.maxSatisfying versions r := rfl
  rw [hfold] at h
  cases hres : semver.maxSatisfying versions r with
  | none => rw [hres] at h; exact Or.inr ⟨rfl, h⟩
  | some m => rw [hres] at h; exact Or.inl ⟨m, rfl, h⟩

/-- C1: for a semantic-range specifier that is not empty, `latest` or
`match`, against the candidate pool delivered by the remote catalog,
`resolveVersion` succeeds with a maximum pool element satisfying the range
when one exists, and otherwise fails with a NoMatch error whose message
contains the original specifier text. -/
theorem resolveVersion_range_max :
    ∀ (env : Env) (r : String) (P : List String),
      env.available = .ok P → semver.validRange r = true →
      r ≠ "" → r ≠ "latest" → r ≠ "match" →
      (∃ m, resolveVersion env r = some (.ok m) ∧ m ∈ P
          ∧ semver.satisfies m r = true
          ∧ ∀ x ∈ P, semver.satisfies x r = true →
              tLe (semver.parseD x) (semver.parseD m) = true)
      ∨ ((∀ x ∈ P, semver.satisfies x r = false)
          ∧ resolveVersion env r = some (.error (noMatchMsg r))
          ∧ ∃ s1 s2, noMatchMsg r = s1 ++ r ++ s2) := by
  intro env r P hP hr h1 h2 h3
  have hbranch : resolveVersion env r =
      match semver.maxSatisfying P r with
      | none => some (.error (noMatchMsg r))
      | some ver => some (.ok ver) := by
    rw [resolveVersion, if_neg (by simp [h1, h2]), if_neg h3, hP]
    simp [hr]
  rcases maxSatisfying_spec P r with ⟨m, hm, hmem, hms, hmax⟩ | ⟨hnone, hall⟩
  · exact Or.inl ⟨m, by rw [hbranch, hm], hmem, hms, hmax⟩
  · exact Or.inr ⟨hall, by rw [hbranch, hnone],
      "Version spec, \x22", "\x22, didn\x27t match any version", rfl⟩

/-- The environment of the C1 witness: the remote catalog delivered the pool
`1.0.0, 2.0.0, 2.5.3`. -/
def envC1 : Env := ⟨fun _ => [], 0, Except.error "", Except.ok ["1.0.0", "2.0.0", "2.5.3"]⟩

/-- C1 witness: the range claim at the spec scenario `^2.0.0` over that
pool. -/
theorem resolveVersion_range_max_witness :
    (∃ m, resolveVersion envC1 "^2.0.0" = some (.ok m) ∧ m ∈ ["1.0.0", "2.0.0", "2.5.3"]
        ∧ semver.satisfies m "^2.0.0" = true
        ∧ ∀ x ∈ ["1.0.0", "2.0.0", "2.5.3"], semver.satisfies x "^2.0.0" = true →
            tLe (semver.parseD x) (semver.parseD m) = true)
    ∨ ((∀ x ∈ ["1.0.0", "2.0.0", "2.5.3"], semver.satisfies x "^2.0.0" = false)
        ∧ resolveVersion envC1 "^2.0.0" = some (.error (noMatchMsg "^2.0.0"))
        ∧ ∃ s1 s2, noMatchMsg "^2.0.0" = s1 ++ "^2.0.0" ++ s2) :=
  resolveVersion_range_max envC1 "^2.0.0" ["1.0.0", "2.0.0", "2.5.3"] rfl (by decide)
    (by decide) (by decide) (by decide)

end Nodist
